import Mathlib

/-!
Verification of `apps/super_simplify/filter_rewrite_rules.cpp` (Halide).

The driver loads a corpus of candidate rewrite rules `rewrite(lhs, rhs, predicate)`,
deduplicates and sorts them structurally (`std::set<Expr, IRDeepCompare>`),
re-synthesizes each rule's predicate, and then classifies every rule as exactly one of
"False predicate", "Implicit rule", "Simplifiable LHS", "Too specific" or "Good rule".

The expression model below is a shallow embedding of the Halide `Expr` trees
manipulated by the driver.  The external collaborators that the driver consumes
(`synthesize_predicate`, `simplify`, `can_prove`) are modelled as an abstract
oracle record; helpers whose sources are not part of the analyzed tree
(`IRDeepCompare`, `equal`, `substitute`, `find_vars`, `expr_uses_var`, `is_zero`,
`more_general_than`) are modelled from the specification, as documented on each
definition.
-/

namespace FilterRewriteRules

/-- Three-way comparison induced by a linear order. -/
def cmpOfLt {α : Type _} [LinearOrder α] (a b : α) : Ordering :=
  if a < b then .lt else if a = b then .eq else .gt

/-- Three-way comparison of characters by code point. -/
def cmpChar (a b : Char) : Ordering := cmpOfLt a.toNat b.toNat

/-- Lexicographic three-way comparison of character lists. -/
def cmpChars : List Char → List Char → Ordering
  | [], [] => .eq
  | [], _ :: _ => .lt
  | _ :: _, [] => .gt
  | a :: as, b :: bs => (cmpChar a b).then (cmpChars as bs)

/-- Lexicographic three-way comparison of strings (used for leaf payloads). -/
def cmpStr (a b : String) : Ordering := cmpChars a.data b.data

/-- Operator kinds of the expression model.  Modelled from the spec:
arithmetic, comparison, boolean, `min`, `max` and `select` operators of the
`Node` data model (associative n-ary forms normalized to binary). -/
inductive OpKind where
  | add | sub | mul | div
  | lt | le | eq | ne
  | and | or | not
  | min | max | select
deriving DecidableEq, Repr

/-- Numeric tag of an operator kind, used by the structural ordering. -/
def OpKind.tag : OpKind → Nat
  | .add => 0 | .sub => 1 | .mul => 2 | .div => 3
  | .lt => 4 | .le => 5 | .eq => 6 | .ne => 7
  | .and => 8 | .or => 9 | .not => 10
  | .min => 11 | .max => 12 | .select => 13

/-- Expression trees.  Modelled from the spec data model (`Const`, `Var`,
`Op(kind, children)`), plus the `Call` node the driver inspects: a parsed
top-level term must be a call named "rewrite" with exactly three arguments.
As in the analyzed driver, `Var` doubles as the rule-level pattern wildcard. -/
inductive Expr where
  | Const (v : Int)
  | Var (name : String)
  | Op (k : OpKind) (args : List Expr)
  | Call (name : String) (args : List Expr)

/-- Constructor tag of an expression, used by the structural ordering. -/
def Expr.tag : Expr → Nat
  | .Const _ => 0
  | .Var _ => 1
  | .Op _ _ => 2
  | .Call _ _ => 3

mutual
/-- Decidable structural equality of expressions. -/
def Expr.decEq : (a b : Expr) → Decidable (a = b)
  | .Const a, .Const b =>
      if h : a = b then .isTrue (by rw [h]) else .isFalse (by simp [h])
  | .Const _, .Var _ => .isFalse (by simp)
  | .Const _, .Op _ _ => .isFalse (by simp)
  | .Const _, .Call _ _ => .isFalse (by simp)
  | .Var _, .Const _ => .isFalse (by simp)
  | .Var a, .Var b =>
      if h : a = b then .isTrue (by rw [h]) else .isFalse (by simp [h])
  | .Var _, .Op _ _ => .isFalse (by simp)
  | .Var _, .Call _ _ => .isFalse (by simp)
  | .Op _ _, .Const _ => .isFalse (by simp)
  | .Op _ _, .Var _ => .isFalse (by simp)
  | .Op k1 a1, .Op k2 a2 =>
      if hk : k1 = k2 then
        match Expr.decEqList a1 a2 with
        | .isTrue h => .isTrue (by rw [hk, h])
        | .isFalse h => .isFalse (by simp [h])
      else .isFalse (by simp [hk])
  | .Op _ _, .Call _ _ => .isFalse (by simp)
  | .Call _ _, .Const _ => .isFalse (by simp)
  | .Call _ _, .Var _ => .isFalse (by simp)
  | .Call _ _, .Op _ _ => .isFalse (by simp)
  | .Call n1 a1, .Call n2 a2 =>
      if hn : n1 = n2 then
        match Expr.decEqList a1 a2 with
        | .isTrue h => .isTrue (by rw [hn, h])
        | .isFalse h => .isFalse (by simp [h])
      else .isFalse (by simp [hn])

/-- Decidable structural equality of expression lists. -/
def Expr.decEqList : (as bs : List Expr) → Decidable (as = bs)
  | [], [] => .isTrue rfl
  | [], _ :: _ => .isFalse (by simp)
  | _ :: _, [] => .isFalse (by simp)
  | a :: as, b :: bs =>
      match Expr.decEq a b, Expr.decEqList as bs with
      | .isTrue h1, .isTrue h2 => .isTrue (by rw [h1, h2])
      | .isFalse h1, _ => .isFalse (by simp [h1])
      | .isTrue _, .isFalse h2 => .isFalse (by simp [h2])
end

instance : DecidableEq Expr := Expr.decEq

mutual
/-- Modelled from the spec: `IRDeepCompare` — a strict total order on
expression trees: "compare by node-kind tag first; for equal kinds, compare
children pairwise left-to-right, then leaf payload (name or integer value)". -/
def Expr.cmp : Expr → Expr → Ordering
  | .Const a, .Const b => cmpOfLt a b
  | .Const _, .Var _ => .lt
  | .Const _, .Op _ _ => .lt
  | .Const _, .Call _ _ => .lt
  | .Var _, .Const _ => .gt
  | .Var a, .Var b => cmpStr a b
  | .Var _, .Op _ _ => .lt
  | .Var _, .Call _ _ => .lt
  | .Op _ _, .Const _ => .gt
  | .Op _ _, .Var _ => .gt
  | .Op k1 a1, .Op k2 a2 => (cmpOfLt k1.tag k2.tag).then (Expr.cmpList a1 a2)
  | .Op _ _, .Call _ _ => .lt
  | .Call _ _, .Const _ => .gt
  | .Call _ _, .Var _ => .gt
  | .Call _ _, .Op _ _ => .gt
  | .Call n1 a1, .Call n2 a2 => (cmpStr n1 n2).then (Expr.cmpList a1 a2)

/-- Pairwise left-to-right comparison of child lists, shorter lists first. -/
def Expr.cmpList : List Expr → List Expr → Ordering
  | [], [] => .eq
  | [], _ :: _ => .lt
  | _ :: _, [] => .gt
  | a :: as, b :: bs => (Expr.cmp a b).then (Expr.cmpList as bs)
end

/-- Comparison of two expressions of the same kind (payload and children);
`.eq` on mismatched kinds, where it is masked by the tag comparison. -/
def Expr.cmpSame : Expr → Expr → Ordering
  | .Const a, .Const b => cmpOfLt a b
  | .Var a, .Var b => cmpStr a b
  | .Op k1 a1, .Op k2 a2 => (cmpOfLt k1.tag k2.tag).then (Expr.cmpList a1 a2)
  | .Call n1 a1, .Call n2 a2 => (cmpStr n1 n2).then (Expr.cmpList a1 a2)
  | _, _ => .eq

/-- Modelled from the spec: `equal(a,b)` is `compare(a,b) == Equal`. -/
def Expr.equalE (a b : Expr) : Bool := a.cmp b == Ordering.eq

/-- Modelled from the spec: `is_zero`/"syntactically the constant false" —
the integer (or boolean) immediate zero.  The driver uses it to detect
predicates that collapsed to `false` during synthesis. -/
def is_zero : Expr → Bool
  | .Const 0 => true
  | _ => false

/-- A variable binding discovered by matching or synthesis: a mapping from
variable name to expression (keys unique, first entry wins on lookup). -/
abbrev Binding := List (String × Expr)

mutual
/-- Modelled from the spec: structural substitution — replaces every `Var`
leaf bound in the binding by its image, rebuilding the tree. -/
def substitute (b : Binding) : Expr → Expr
  | .Const v => .Const v
  | .Var n =>
      match List.lookup n b with
      | some e => e
      | none => .Var n
  | .Op k args => .Op k (substituteList b args)
  | .Call n args => .Call n (substituteList b args)

/-- Substitution mapped over a child list. -/
def substituteList (b : Binding) : List Expr → List Expr
  | [] => []
  | e :: es => substitute b e :: substituteList b es
end

mutual
/-- Modelled from the spec: `find_vars` — the pattern variables occurring in
a tree (`Const` leaves contribute nothing); occurrence list, queried only for
membership. -/
def find_vars : Expr → List String
  | .Const _ => []
  | .Var n => [n]
  | .Op _ args => find_varsList args
  | .Call _ args => find_varsList args

/-- Variable occurrences of a child list. -/
def find_varsList : List Expr → List String
  | [] => []
  | e :: es => find_vars e ++ find_varsList es
end

mutual
/-- Modelled from the spec: `expr_uses_var` — true iff the name occurs as a
`Var` leaf anywhere in the tree. -/
def expr_uses_var : Expr → String → Bool
  | .Const _, _ => false
  | .Var n, v => n == v
  | .Op _ args, v => expr_uses_varList args v
  | .Call _ args, v => expr_uses_varList args v

/-- `expr_uses_var` over a child list. -/
def expr_uses_varList : List Expr → String → Bool
  | [], _ => false
  | e :: es, v => expr_uses_var e v || expr_uses_varList es v
end

mutual
/-- The `CountLeaves` visitor of the driver: counts `Const` (IntImm) and
`Var` (Variable) occurrences, ignoring operator nodes; pattern wildcards are
`Var` leaves and hence counted too. -/
def countLeaves : Expr → Nat
  | .Const _ => 1
  | .Var _ => 1
  | .Op _ args => countLeavesList args
  | .Call _ args => countLeavesList args

/-- Leaf count of a child list. -/
def countLeavesList : List Expr → Nat
  | [] => 0
  | e :: es => countLeaves e + countLeavesList es
end

/-- Operator kinds treated as commutative by the pattern matcher. -/
def OpKind.commutative : OpKind → Bool
  | .add | .mul | .min | .max => true
  | _ => false

mutual
/-- Modelled from the spec: `more_general_than(pattern_a, pattern_b)` —
recursive descent in which `pattern_a`'s wildcards bind to whatever
`pattern_b` sub-term occupies that position (consistently across repeated
occurrences), a `Const` matches only an equal `Const`, operators must share
kind and arity, and for commutative binary kinds both operand orderings are
attempted, keeping the first that succeeds.  Accumulates the binding. -/
def mgt : Expr → Expr → Binding → Option Binding
  | .Var n, e, b =>
      match List.lookup n b with
      | some e0 => if e0 = e then some b else none
      | none => some ((n, e) :: b)
  | .Const v, .Const w, b => if v = w then some b else none
  | .Const _, _, _ => none
  | .Op k1 args1, .Op k2 args2, b =>
      if k1 = k2 then
        if k1.commutative then
          match args1, args2 with
          | [x, y], [u, v] =>
              match (match mgt x u b with
                     | some b1 => mgt y v b1
                     | none => none) with
              | some b2 => some b2
              | none =>
                  match mgt x v b with
                  | some b1 => mgt y u b1
                  | none => none
          | as, bs => mgtList as bs b
        else mgtList args1 args2 b
      else none
  | .Op _ _, _, _ => none
  | .Call n1 a1, .Call n2 a2, b =>
      if n1 = n2 then mgtList a1 a2 b else none
  | .Call _ _, _, _ => none

/-- `more_general_than` descent over child lists of equal arity. -/
def mgtList : List Expr → List Expr → Binding → Option Binding
  | [], [], b => some b
  | [], _ :: _, _ => none
  | _ :: _, [], _ => none
  | a :: as, c :: cs, b =>
      match mgt a c b with
      | some b1 => mgtList as cs b1
      | none => none
end

/-- `more_general_than` with an initially empty binding, as called by the
driver's domination loop. -/
def more_general_than (p e : Expr) : Option Binding := mgt p e []

/-- Ordered insertion into a sorted duplicate-free list: the incremental
behaviour of `std::set<Expr, IRDeepCompare>::insert` (an element comparing
equal to one already present is discarded). -/
def insertExpr (e : Expr) : List Expr → List Expr
  | [] => [e]
  | x :: xs =>
      match Expr.cmp e x with
      | .lt => e :: x :: xs
      | .eq => x :: xs
      | .gt => x :: insertExpr e xs

/-- The de-dup step of the driver: inserting every parsed expression into a
`std::set<Expr, IRDeepCompare>` and reading it back in sorted order. -/
def dedupSort (l : List Expr) : List Expr :=
  l.foldl (fun s e => insertExpr e s) []

/-- A rewrite rule as carried by the driver: `lhs`, `rhs`, `predicate`, and
the original parsed expression `orig`.  In the driver, each `orig` is a
distinct element of the deduplicated set, so pointer identity (`same_as`)
of `orig`s coincides with structural equality; the model uses structural
equality for the identity check. -/
structure Rule where
  lhs : Expr
  rhs : Expr
  predicate : Expr
  orig : Expr
deriving DecidableEq

/-- Fatal input errors of the driver: a top-level term that is not a call
named "rewrite" (diagnostic on `stderr`, `return -1`), or a "rewrite" call
whose arity is not 3 (`_halide_user_assert` aborts the process). -/
inductive BuildError where
  | notRewrite (e : Expr)
  | badArity (e : Expr)
deriving DecidableEq

/-- The rule-construction loop of the driver: every term of the
deduplicated, sorted corpus must be a 3-argument call named "rewrite";
the first offending term aborts the run. -/
def buildRules : List Expr → Except BuildError (List Rule)
  | [] => .ok []
  | e@(.Call "rewrite" [l, r, p]) :: rest =>
      match buildRules rest with
      | .ok rs => .ok ({ lhs := l, rhs := r, predicate := p, orig := e } :: rs)
      | .error err => .error err
  | e@(.Call "rewrite" _) :: _ => .error (.badArity e)
  | e :: _ => .error (.notRewrite e)

/-- The external collaborators consumed by the driver, kept abstract:
`synthesize_predicate` (returns the new predicate and a wildcard binding),
the baseline normalizer `simplify`, and the sound-but-incomplete theorem
prover `can_prove` (`false` means "unproven", never "disproven"). -/
structure Oracles where
  synthesize : Expr → Expr → Expr × Binding
  simplify : Expr → Expr
  can_prove : Expr → Bool

/-- The re-synthesis stage for one rule: the predicate is replaced wholesale
by the synthesizer's output, the returned binding is substituted into `lhs`
and `rhs`, and `orig` is left untouched. -/
def resynthRule (O : Oracles) (r : Rule) : Rule :=
  let pb := O.synthesize r.lhs r.rhs
  { lhs := substitute pb.2 r.lhs
    rhs := substitute pb.2 r.rhs
    predicate := pb.1
    orig := r.orig }

/-- The formula the domination check asks the prover to validate:
`r2.predicate || substitute(binding, !r.predicate)`. -/
def dominationFormula (r2 r : Rule) (b : Binding) : Expr :=
  .Op .or [r2.predicate, substitute b (.Op .not [r.predicate])]

/-- One iteration of the driver's domination loop, as a boolean test on the
candidate `r2`: skip candidates with the same origin identity, then require
`more_general_than(r2.lhs, r.lhs)` to succeed and the prover to validate the
domination formula under the discovered binding. -/
def dominatesB (O : Oracles) (r r2 : Rule) : Bool :=
  if r.orig = r2.orig then false
  else
    match more_general_than r2.lhs r.lhs with
    | some b => O.can_prove (dominationFormula r2 r b)
    | none => false

/-- The driver's domination loop: the first rule in the list (sorted order)
that dominates `r`, if any. -/
def findDominator (O : Oracles) (rules : List Rule) (r : Rule) : Option Rule :=
  rules.find? (dominatesB O r)

/-- Classification outcome of one rule (stages after re-synthesis). -/
inductive Classification where
  | falsePred
  | implicitRule
  | simplifiable (simpler : Expr)
  | tooSpecific (r2 : Rule)
  | good
deriving DecidableEq

/-- The per-rule filter cascade of the driver, in source order: false
predicate, implicit rule, simplifiable LHS (via the baseline normalizer and
the leaf counter), then domination against the whole rule list. -/
def classifyRule (O : Oracles) (rules : List Rule) (r : Rule) : Classification :=
  if is_zero r.predicate then .falsePred
  else if (find_vars r.rhs).any (fun v => !expr_uses_var r.lhs v) then .implicitRule
  else if countLeaves (O.simplify r.lhs) < countLeaves r.lhs then
    .simplifiable (O.simplify r.lhs)
  else
    match findDominator O rules r with
    | some r2 => .tooSpecific r2
    | none => .good

/-- One line of the driver's standard output. -/
inductive Line where
  | resynth (orig : Expr)
  | falsePredicate (orig : Expr)
  | implicitRule (orig : Expr)
  | simplifiableLHS (lhs simpler : Expr)
  | tooSpecific (orig origDominating : Expr)
  | goodRule (lhs rhs predicate : Expr)
deriving DecidableEq

/-- Whether a line is a classification line (anything but "Re-synthesizing
predicate for"). -/
def Line.isClassification : Line → Bool
  | .resynth _ => false
  | _ => true

/-- The classification line the driver prints for one rule. -/
def classifyLine (O : Oracles) (rules : List Rule) (r : Rule) : Line :=
  match classifyRule O rules r with
  | .falsePred => .falsePredicate r.orig
  | .implicitRule => .implicitRule r.orig
  | .simplifiable s => .simplifiableLHS r.lhs s
  | .tooSpecific r2 => .tooSpecific r.orig r2.orig
  | .good => .goodRule r.lhs r.rhs r.predicate

/-- The driver's classification loop, with the `last` variable implementing
the adjacent-duplicate skip (`if (last.defined() && equal(r.orig, last))
continue;`). -/
def classifyLoop (O : Oracles) (all : List Rule) : Option Expr → List Rule → List Line
  | _, [] => []
  | last, r :: rest =>
      if (match last with
          | some l => Expr.equalE r.orig l
          | none => false) then
        classifyLoop O all last rest
      else
        classifyLine O all r :: classifyLoop O all (some r.orig) rest

/-- Observable outcome of one run of the driver: the classification-relevant
standard output, the fatal diagnostic (if any), and the exit code. -/
structure RunResult where
  out : List Line
  err : Option BuildError
  exitCode : Int
deriving DecidableEq

/-- The whole driver on a parsed corpus: de-dup and sort, build the rules
(aborting on malformed input before any output), print one "Re-synthesizing"
line per rule while re-synthesizing all predicates, then run the
classification loop over the re-synthesized rules. -/
def run (O : Oracles) (input : List Expr) : RunResult :=
  match buildRules (dedupSort input) with
  | .error err => { out := [], err := some err, exitCode := -1 }
  | .ok rules0 =>
      let rules := rules0.map (resynthRule O)
      { out := rules.map (fun r => Line.resynth r.orig)
            ++ classifyLoop O rules none rules
        err := none
        exitCode := 0 }

/-- Whether a parsed top-level term is a well-formed 3-argument "rewrite"
call (the only shape the rule-construction loop accepts). -/
def isRewriteRule3 : Expr → Bool
  | .Call "rewrite" [_, _, _] => true
  | _ => false

/-- A binding that maps every bound name to itself (the identity binding
produced when a pattern is matched against itself). -/
def IdBinding (b : Binding) : Prop := ∀ p ∈ b, p.2 = Expr.Var p.1

/-- Concrete oracle: the synthesizer returns the constant-true predicate and
an empty binding, the normalizer is the identity, and the prover validates
exactly the disjunctions whose first disjunct is the constant-true literal
(a sound behaviour, since `1 || e` is valid). -/
def OTrueProve : Oracles where
  synthesize := fun _ _ => (.Const 1, [])
  simplify := id
  can_prove := fun e =>
    match e with
    | .Op .or (.Const 1 :: _) => true
    | _ => false

/-- Concrete oracle: predicate synthesis always fails to the constant-false
predicate, the normalizer is the identity, and the prover proves nothing. -/
def OZero : Oracles where
  synthesize := fun _ _ => (.Const 0, [])
  simplify := id
  can_prove := fun _ => false

/-- Concrete oracle: constant-true synthesis, a normalizer that reduces
`x - x` to `0` (an established algebraic identity), and a prover that
proves nothing. -/
def OSimp : Oracles where
  synthesize := fun _ _ => (.Const 1, [])
  simplify := fun e =>
    match e with
    | .Op .sub [.Var a, .Var b] => if a = b then .Const 0 else e
    | _ => e
  can_prove := fun _ => false

/-- The parsed term `rewrite(x, y, 1)`: its rhs introduces `y`, absent from
the lhs. -/
def eImplicit : Expr := .Call "rewrite" [.Var "x", .Var "y", .Const 1]

/-- The parsed term `rewrite(min(a, b), a, 1)`. -/
def eMinRule : Expr := .Call "rewrite" [.Op .min [.Var "a", .Var "b"], .Var "a", .Const 1]

/-- The parsed term `rewrite(x - x, 0, 1)` of Scenario A. -/
def eSubRule : Expr := .Call "rewrite" [.Op .sub [.Var "x", .Var "x"], .Const 0, .Const 1]

/-- The parsed term `rewrite(y, x, 1)` of Scenario C. -/
def eYX : Expr := .Call "rewrite" [.Var "y", .Var "x", .Const 1]

/-- The parsed term `rewrite(x, x, 1)`. -/
def eSelfRule : Expr := .Call "rewrite" [.Var "x", .Var "x", .Const 1]

/-- A two-rule corpus: a dominating implicit rule and a dominated rule. -/
def inputPair : List Expr := [eMinRule, eImplicit]

/-- The post-synthesis rule list the driver builds from `inputPair` under
`OTrueProve`. -/
def rulesPair : List Rule :=
  match buildRules (dedupSort inputPair) with
  | .ok rs => rs.map (resynthRule OTrueProve)
  | .error _ => []

/-- Strict structural order on expressions (the `IRDeepCompare` order). -/
def exprLT (a b : Expr) : Prop := Expr.cmp a b = .lt

/-- The lhs `x - x` of Scenario A. -/
def lhsSub : Expr := .Op .sub [.Var "x", .Var "x"]

/-- The rule the driver builds from `eImplicit` (its predicate re-synthesized
to the constant-true predicate by `OTrueProve` with an empty binding). -/
def ruleImp : Rule :=
  { lhs := .Var "x", rhs := .Var "y", predicate := .Const 1, orig := eImplicit }

/-- The rule the driver builds from `eMinRule` (predicate re-synthesized to
the constant-true predicate by `OTrueProve` with an empty binding). -/
def ruleMinR : Rule :=
  { lhs := .Op .min [.Var "a", .Var "b"], rhs := .Var "a", predicate := .Const 1, orig := eMinRule }

/-- The rule the driver builds from `eSubRule`, before re-synthesis. -/
def ruleSub : Rule :=
  { lhs := lhsSub, rhs := .Const 0, predicate := .Const 1, orig := eSubRule }

/-- The rule the driver builds from `eYX`, before re-synthesis. -/
def ruleYX : Rule :=
  { lhs := .Var "y", rhs := .Var "x", predicate := .Const 1, orig := eYX }

theorem cmpOfLt_lt_iff {α : Type _} [LinearOrder α] (a b : α) :
    cmpOfLt a b = .lt ↔ a < b := by
  unfold cmpOfLt
  rcases lt_trichotomy a b with h | h | h
  · simp [h]
  · subst h; simp [lt_irrefl]
  · simp [not_lt_of_gt h, ne_of_gt h]

theorem cmpOfLt_eq_iff {α : Type _} [LinearOrder α] (a b : α) :
    cmpOfLt a b = .eq ↔ a = b := by
  unfold cmpOfLt
  rcases lt_trichotomy a b with h | h | h
  · simp [h, ne_of_lt h]
  · subst h; simp [lt_irrefl]
  · simp [not_lt_of_gt h, ne_of_gt h]

theorem cmpOfLt_trans {α : Type _} [LinearOrder α] (a b c : α)
    (h1 : cmpOfLt a b = .lt) (h2 : cmpOfLt b c = .lt) : cmpOfLt a c = .lt := by
  rw [cmpOfLt_lt_iff] at h1 h2 ⊢
  exact lt_trans h1 h2

theorem cmpOfLt_swap {α : Type _} [LinearOrder α] (a b : α) :
    (cmpOfLt a b).swap = cmpOfLt b a := by
  unfold cmpOfLt
  rcases lt_trichotomy a b with h | h | h
  · simp [h, not_lt_of_gt h, (ne_of_gt h : b ≠ a), Ordering.swap]
  · subst h; simp [lt_irrefl, Ordering.swap]
  · simp [h, not_lt_of_gt h, (ne_of_gt h : a ≠ b), Ordering.swap]

theorem then_trans_lt {α : Type _} {f : α → α → Ordering}
    (heq : ∀ x y : α, f x y = .eq ↔ x = y)
    (htr : ∀ x y z : α, f x y = .lt → f y z = .lt → f x z = .lt)
    {a b c : α} {x y z : Ordering}
    (hxy : (f a b).then x = .lt) (hyz : (f b c).then y = .lt)
    (hx : x = .lt → y = .lt → z = .lt) :
    (f a c).then z = .lt := by
  rw [Ordering.then_eq_lt] at hxy hyz ⊢
  rcases hxy with h1 | ⟨h1, hx1⟩ <;> rcases hyz with h2 | ⟨h2, hy1⟩
  · exact Or.inl (htr a b c h1 h2)
  · rw [heq] at h2; subst h2; exact Or.inl h1
  · rw [heq] at h1; subst h1; exact Or.inl h2
  · rw [heq] at h1 h2; subst h1; subst h2
    exact Or.inr ⟨(heq a a).mpr rfl, hx hx1 hy1⟩

theorem cmpChar_eq_iff (a b : Char) : cmpChar a b = .eq ↔ a = b := by
  unfold cmpChar
  rw [cmpOfLt_eq_iff]
  constructor
  · intro h
    apply Char.eq_of_val_eq
    apply UInt32.ext
    exact h
  · intro h; rw [h]

theorem cmpChar_trans (a b c : Char) (h1 : cmpChar a b = .lt) (h2 : cmpChar b c = .lt) :
    cmpChar a c = .lt :=
  cmpOfLt_trans _ _ _ h1 h2

theorem cmpChar_swap (a b : Char) : (cmpChar a b).swap = cmpChar b a :=
  cmpOfLt_swap _ _

theorem cmpChars_eq_iff : ∀ as bs : List Char, cmpChars as bs = .eq ↔ as = bs
  | [], [] => by simp [cmpChars]
  | [], _ :: _ => by simp [cmpChars]
  | _ :: _, [] => by simp [cmpChars]
  | a :: as, b :: bs => by
      simp [cmpChars, Ordering.then_eq_eq, cmpChar_eq_iff a b, cmpChars_eq_iff as bs]

theorem cmpChars_trans : ∀ as bs cs : List Char,
    cmpChars as bs = .lt → cmpChars bs cs = .lt → cmpChars as cs = .lt
  | [], [], _ => by intro h; simp [cmpChars] at h
  | [], _ :: _, [] => by intro _ h; simp [cmpChars] at h
  | [], _ :: _, _ :: _ => by intro _ _; simp [cmpChars]
  | _ :: _, [], _ => by intro h; simp [cmpChars] at h
  | _ :: _, _ :: _, [] => by intro _ h; simp [cmpChars] at h
  | a :: as, b :: bs, c :: cs => by
      intro h1 h2
      simp only [cmpChars] at h1 h2 ⊢
      exact then_trans_lt cmpChar_eq_iff cmpChar_trans h1 h2 (cmpChars_trans as bs cs)

theorem cmpChars_swap : ∀ as bs : List Char, (cmpChars as bs).swap = cmpChars bs as
  | [], [] => rfl
  | [], _ :: _ => rfl
  | _ :: _, [] => rfl
  | a :: as, b :: bs => by
      simp only [cmpChars, Ordering.swap_then, cmpChar_swap a b, cmpChars_swap as bs]

theorem cmpStr_eq_iff (a b : String) : cmpStr a b = .eq ↔ a = b := by
  unfold cmpStr
  rw [cmpChars_eq_iff]
  constructor
  · exact String.ext
  · intro h; rw [h]

theorem cmpStr_trans (a b c : String) (h1 : cmpStr a b = .lt) (h2 : cmpStr b c = .lt) :
    cmpStr a c = .lt :=
  cmpChars_trans _ _ _ h1 h2

theorem cmpStr_swap (a b : String) : (cmpStr a b).swap = cmpStr b a :=
  cmpChars_swap _ _

theorem OpKind.tag_inj (k1 k2 : OpKind) : k1.tag = k2.tag ↔ k1 = k2 := by
  cases k1 <;> cases k2 <;> simp [OpKind.tag]

mutual
theorem Expr.cmp_eq_iff : ∀ a b : Expr, Expr.cmp a b = .eq ↔ a = b
  | .Const a, .Const b => by simp [Expr.cmp, cmpOfLt_eq_iff]
  | .Const _, .Var _ => by simp [Expr.cmp]
  | .Const _, .Op _ _ => by simp [Expr.cmp]
  | .Const _, .Call _ _ => by simp [Expr.cmp]
  | .Var _, .Const _ => by simp [Expr.cmp]
  | .Var a, .Var b => by simp [Expr.cmp, cmpStr_eq_iff]
  | .Var _, .Op _ _ => by simp [Expr.cmp]
  | .Var _, .Call _ _ => by simp [Expr.cmp]
  | .Op _ _, .Const _ => by simp [Expr.cmp]
  | .Op _ _, .Var _ => by simp [Expr.cmp]
  | .Op k1 a1, .Op k2 a2 => by
      simp [Expr.cmp, Ordering.then_eq_eq, cmpOfLt_eq_iff, OpKind.tag_inj,
        Expr.cmpList_eq_iff a1 a2]
  | .Op _ _, .Call _ _ => by simp [Expr.cmp]
  | .Call _ _, .Const _ => by simp [Expr.cmp]
  | .Call _ _, .Var _ => by simp [Expr.cmp]
  | .Call _ _, .Op _ _ => by simp [Expr.cmp]
  | .Call n1 a1, .Call n2 a2 => by
      simp [Expr.cmp, Ordering.then_eq_eq, cmpStr_eq_iff, Expr.cmpList_eq_iff a1 a2]

theorem Expr.cmpList_eq_iff : ∀ as bs : List Expr, Expr.cmpList as bs = .eq ↔ as = bs
  | [], [] => by simp [Expr.cmpList]
  | [], _ :: _ => by simp [Expr.cmpList]
  | _ :: _, [] => by simp [Expr.cmpList]
  | a :: as, b :: bs => by
      simp [Expr.cmpList, Ordering.then_eq_eq, Expr.cmp_eq_iff a b,
        Expr.cmpList_eq_iff as bs]
end

theorem Expr.cmp_shape : ∀ a b : Expr,
    Expr.cmp a b = (cmpOfLt a.tag b.tag).then (Expr.cmpSame a b) := by
  intro a b
  cases a <;> cases b <;> rfl

mutual
theorem Expr.cmpSame_swap : ∀ a b : Expr, (Expr.cmpSame a b).swap = Expr.cmpSame b a
  | .Const a, .Const b => cmpOfLt_swap a b
  | .Const _, .Var _ => rfl
  | .Const _, .Op _ _ => rfl
  | .Const _, .Call _ _ => rfl
  | .Var _, .Const _ => rfl
  | .Var a, .Var b => cmpStr_swap a b
  | .Var _, .Op _ _ => rfl
  | .Var _, .Call _ _ => rfl
  | .Op _ _, .Const _ => rfl
  | .Op _ _, .Var _ => rfl
  | .Op k1 a1, .Op k2 a2 => by
      simp only [Expr.cmpSame, Ordering.swap_then, cmpOfLt_swap, Expr.cmpList_swap a1 a2]
  | .Op _ _, .Call _ _ => rfl
  | .Call _ _, .Const _ => rfl
  | .Call _ _, .Var _ => rfl
  | .Call _ _, .Op _ _ => rfl
  | .Call n1 a1, .Call n2 a2 => by
      simp only [Expr.cmpSame, Ordering.swap_then, cmpStr_swap, Expr.cmpList_swap a1 a2]

theorem Expr.cmpList_swap : ∀ as bs : List Expr, (Expr.cmpList as bs).swap = Expr.cmpList bs as
  | [], [] => rfl
  | [], _ :: _ => rfl
  | _ :: _, [] => rfl
  | a :: as, b :: bs => by
      simp only [Expr.cmpList, Ordering.swap_then, Expr.cmp_swap a b, Expr.cmpList_swap as bs]

theorem Expr.cmp_swap : ∀ a b : Expr, (Expr.cmp a b).swap = Expr.cmp b a
  | a, b => by
      rw [Expr.cmp_shape a b, Expr.cmp_shape b a, Ordering.swap_then, cmpOfLt_swap,
        Expr.cmpSame_swap a b]
end

mutual
theorem Expr.cmpSame_trans : ∀ a b c : Expr,
    Expr.cmpSame a b = .lt → Expr.cmpSame b c = .lt → Expr.cmpSame a c = .lt
  | .Const a, .Const b, .Const c => by
      simp only [Expr.cmpSame]
      exact cmpOfLt_trans a b c
  | .Var a, .Var b, .Var c => by
      simp only [Expr.cmpSame]
      exact cmpStr_trans a b c
  | .Op k1 a1, .Op k2 a2, .Op k3 a3 => by
      intro h1 h2
      simp only [Expr.cmpSame] at h1 h2 ⊢
      exact then_trans_lt cmpOfLt_eq_iff cmpOfLt_trans h1 h2 (Expr.cmpList_trans a1 a2 a3)
  | .Call n1 a1, .Call n2 a2, .Call n3 a3 => by
      intro h1 h2
      simp only [Expr.cmpSame] at h1 h2 ⊢
      exact then_trans_lt cmpStr_eq_iff cmpStr_trans h1 h2 (Expr.cmpList_trans a1 a2 a3)
  | .Const _, .Var _, _ => by intro h _; simp [Expr.cmpSame] at h
  | .Const _, .Op _ _, _ => by intro h _; simp [Expr.cmpSame] at h
  | .Const _, .Call _ _, _ => by intro h _; simp [Expr.cmpSame] at h
  | .Var _, .Const _, _ => by intro h _; simp [Expr.cmpSame] at h
  | .Var _, .Op _ _, _ => by intro h _; simp [Expr.cmpSame] at h
  | .Var _, .Call _ _, _ => by intro h _; simp [Expr.cmpSame] at h
  | .Op _ _, .Const _, _ => by intro h _; simp [Expr.cmpSame] at h
  | .Op _ _, .Var _, _ => by intro h _; simp [Expr.cmpSame] at h
  | .Op _ _, .Call _ _, _ => by intro h _; simp [Expr.cmpSame] at h
  | .Call _ _, .Const _, _ => by intro h _; simp [Expr.cmpSame] at h
  | .Call _ _, .Var _, _ => by intro h _; simp [Expr.cmpSame] at h
  | .Call _ _, .Op _ _, _ => by intro h _; simp [Expr.cmpSame] at h
  | .Const _, .Const _, .Var _ => by intro _ h; simp [Expr.cmpSame] at h
  | .Const _, .Const _, .Op _ _ => by intro _ h; simp [Expr.cmpSame] at h
  | .Const _, .Const _, .Call _ _ => by intro _ h; simp [Expr.cmpSame] at h
  | .Var _, .Var _, .Const _ => by intro _ h; simp [Expr.cmpSame] at h
  | .Var _, .Var _, .Op _ _ => by intro _ h; simp [Expr.cmpSame] at h
  | .Var _, .Var _, .Call _ _ => by intro _ h; simp [Expr.cmpSame] at h
  | .Op _ _, .Op _ _, .Const _ => by intro _ h; simp [Expr.cmpSame] at h
  | .Op _ _, .Op _ _, .Var _ => by intro _ h; simp [Expr.cmpSame] at h
  | .Op _ _, .Op _ _, .Call _ _ => by intro _ h; simp [Expr.cmpSame] at h
  | .Call _ _, .Call _ _, .Const _ => by intro _ h; simp [Expr.cmpSame] at h
  | .Call _ _, .Call _ _, .Var _ => by intro _ h; simp [Expr.cmpSame] at h
  | .Call _ _, .Call _ _, .Op _ _ => by intro _ h; simp [Expr.cmpSame] at h

theorem Expr.cmpList_trans : ∀ as bs cs : List Expr,
    Expr.cmpList as bs = .lt → Expr.cmpList bs cs = .lt → Expr.cmpList as cs = .lt
  | [], [], _ => by intro h; simp [Expr.cmpList] at h
  | [], _ :: _, [] => by intro _ h; simp [Expr.cmpList] at h
  | [], _ :: _, _ :: _ => by intro _ _; simp [Expr.cmpList]
  | _ :: _, [], _ => by intro h; simp [Expr.cmpList] at h
  | _ :: _, _ :: _, [] => by intro _ h; simp [Expr.cmpList] at h
  | a :: as, b :: bs, c :: cs => by
      intro h1 h2
      simp only [Expr.cmpList, Ordering.then_eq_lt] at h1 h2 ⊢
      rcases h1 with h1 | ⟨h1e, h1l⟩ <;> rcases h2 with h2 | ⟨h2e, h2l⟩
      · exact Or.inl (Expr.cmp_trans a b c h1 h2)
      · rw [Expr.cmp_eq_iff b c] at h2e; subst h2e; exact Or.inl h1
      · rw [Expr.cmp_eq_iff a b] at h1e; subst h1e; exact Or.inl h2
      · rw [Expr.cmp_eq_iff a b] at h1e; subst h1e
        exact Or.inr ⟨h2e, Expr.cmpList_trans as bs cs h1l h2l⟩

theorem Expr.cmp_trans : ∀ a b c : Expr,
    Expr.cmp a b = .lt → Expr.cmp b c = .lt → Expr.cmp a c = .lt
  | a, b, c => by
      rw [Expr.cmp_shape a b, Expr.cmp_shape b c, Expr.cmp_shape a c]
      intro h1 h2
      exact then_trans_lt cmpOfLt_eq_iff cmpOfLt_trans h1 h2 (Expr.cmpSame_trans a b c)
end

theorem Expr.cmp_refl (a : Expr) : Expr.cmp a a = .eq := (Expr.cmp_eq_iff a a).mpr rfl

theorem Expr.cmp_eq_eq {a b : Expr} (h : Expr.cmp a b = .eq) : a = b :=
  (Expr.cmp_eq_iff a b).mp h

theorem Expr.cmp_gt_of_lt {a b : Expr} (h : Expr.cmp a b = .lt) : Expr.cmp b a = .gt := by
  rw [← Expr.cmp_swap a b, h]
  rfl

theorem Expr.cmp_lt_of_gt {a b : Expr} (h : Expr.cmp a b = .gt) : Expr.cmp b a = .lt := by
  rw [← Expr.cmp_swap a b, h]
  rfl

theorem mem_insertExpr (e : Expr) : ∀ (l : List Expr) (y : Expr),
    y ∈ insertExpr e l ↔ y = e ∨ y ∈ l
  | [], y => by simp [insertExpr]
  | x :: xs, y => by
      unfold insertExpr
      cases h : Expr.cmp e x
      case lt => simp [List.mem_cons]
      case eq =>
          have hx := Expr.cmp_eq_eq h
          subst hx
          simp [List.mem_cons]
      case gt =>
          simp only [List.mem_cons, mem_insertExpr e xs y]
          tauto

theorem insertExpr_sorted (e : Expr) : ∀ l : List Expr,
    l.Pairwise exprLT → (insertExpr e l).Pairwise exprLT
  | [], _ => by simp [insertExpr, List.pairwise_cons]
  | x :: xs, hp => by
      unfold insertExpr
      rcases List.pairwise_cons.mp hp with ⟨hx, hxs⟩
      cases h : Expr.cmp e x
      case lt =>
          refine List.pairwise_cons.mpr ⟨?_, hp⟩
          intro y hy
          rcases List.mem_cons.mp hy with rfl | hy
          · exact h
          · exact Expr.cmp_trans e x y h (hx y hy)
      case eq => exact hp
      case gt =>
          refine List.pairwise_cons.mpr ⟨?_, insertExpr_sorted e xs hxs⟩
          intro y hy
          rcases (mem_insertExpr e xs y).mp hy with rfl | hy
          · exact Expr.cmp_lt_of_gt h
          · exact hx y hy

theorem insertExpr_absorb (e : Expr) : ∀ l : List Expr,
    l.Pairwise exprLT → e ∈ l → insertExpr e l = l
  | [], _, hm => by cases hm
  | x :: xs, hp, hm => by
      unfold insertExpr
      cases h : Expr.cmp e x
      case eq => rfl
      case lt =>
          rcases List.mem_cons.mp hm with rfl | hm
          · rw [Expr.cmp_refl] at h; cases h
          · have hxe : Expr.cmp x e = .lt := (List.pairwise_cons.mp hp).1 e hm
            have := Expr.cmp_gt_of_lt hxe
            rw [h] at this
            cases this
      case gt =>
          rcases List.mem_cons.mp hm with rfl | hm
          · rw [Expr.cmp_refl] at h; cases h
          · rw [insertExpr_absorb e xs (List.pairwise_cons.mp hp).2 hm]

theorem insertExpr_comm_lt (a b : Expr) (hab : Expr.cmp a b = .lt) :
    ∀ l : List Expr, insertExpr a (insertExpr b l) = insertExpr b (insertExpr a l)
  | [] => by
      have hba := Expr.cmp_gt_of_lt hab
      simp [insertExpr, hab, hba]
  | x :: xs => by
      have hba := Expr.cmp_gt_of_lt hab
      cases hbx : Expr.cmp b x
      case lt =>
          have hax : Expr.cmp a x = .lt := Expr.cmp_trans a b x hab hbx
          simp [insertExpr, hbx, hab, hax, hba]
      case eq =>
          have hx := Expr.cmp_eq_eq hbx
          subst hx
          simp [insertExpr, hbx, hab, hba, Expr.cmp_refl]
      case gt =>
          cases hax : Expr.cmp a x
          case lt =>
              simp [insertExpr, hbx, hax, hba]
          case eq =>
              have hx := Expr.cmp_eq_eq hax
              subst hx
              simp [insertExpr, hbx, hax, Expr.cmp_refl]
          case gt =>
              simp [insertExpr, hbx, hax, insertExpr_comm_lt a b hab xs]

theorem insertExpr_comm (a b : Expr) (l : List Expr) :
    insertExpr a (insertExpr b l) = insertExpr b (insertExpr a l) := by
  cases hab : Expr.cmp a b
  case lt => exact insertExpr_comm_lt a b hab l
  case eq => rw [Expr.cmp_eq_eq hab]
  case gt => exact (insertExpr_comm_lt b a (Expr.cmp_lt_of_gt hab) l).symm

theorem dedupSort_go_sorted : ∀ (l s : List Expr), s.Pairwise exprLT →
    (l.foldl (fun s e => insertExpr e s) s).Pairwise exprLT
  | [], s, hs => hs
  | e :: es, s, hs => by
      rw [List.foldl_cons]
      exact dedupSort_go_sorted es _ (insertExpr_sorted e s hs)

theorem dedupSort_sorted (l : List Expr) : (dedupSort l).Pairwise exprLT :=
  dedupSort_go_sorted l [] (by simp)

theorem mem_dedupSort_go : ∀ (l s : List Expr) (y : Expr),
    (y ∈ l.foldl (fun s e => insertExpr e s) s) ↔ y ∈ s ∨ y ∈ l
  | [], s, y => by simp
  | e :: es, s, y => by
      rw [List.foldl_cons, mem_dedupSort_go es _ y, mem_insertExpr e s y]
      simp [List.mem_cons]
      tauto

theorem mem_dedupSort (l : List Expr) (y : Expr) : y ∈ dedupSort l ↔ y ∈ l := by
  rw [dedupSort, mem_dedupSort_go]
  simp

theorem dedupSort_go_perm {l1 l2 : List Expr} (h : l1.Perm l2) :
    ∀ s : List Expr, l1.foldl (fun s e => insertExpr e s) s
      = l2.foldl (fun s e => insertExpr e s) s := by
  induction h with
  | nil => intro s; rfl
  | cons x _ ih =>
      intro s
      rw [List.foldl_cons, List.foldl_cons]
      exact ih _
  | swap x y l =>
      intro s
      rw [List.foldl_cons, List.foldl_cons, List.foldl_cons, List.foldl_cons,
        insertExpr_comm x y s]
  | trans _ _ ih1 ih2 =>
      intro s
      rw [ih1 s, ih2 s]

theorem dedupSort_perm {l1 l2 : List Expr} (h : l1.Perm l2) : dedupSort l1 = dedupSort l2 :=
  dedupSort_go_perm h []

theorem dedupSort_append_dup (l : List Expr) (e : Expr) (he : e ∈ l) :
    dedupSort (l ++ [e]) = dedupSort l := by
  unfold dedupSort
  rw [List.foldl_append]
  simp only [List.foldl_cons, List.foldl_nil]
  exact insertExpr_absorb e _ (dedupSort_sorted l) ((mem_dedupSort l e).mpr he)

theorem buildRules_cons_ok {e : Expr} {rest : List Expr} {rs : List Rule}
    (h : buildRules (e :: rest) = .ok rs) :
    ∃ l0 r0 p0 rs0, e = .Call "rewrite" [l0, r0, p0] ∧ buildRules rest = .ok rs0 ∧
      rs = { lhs := l0, rhs := r0, predicate := p0, orig := e } :: rs0 := by
  rw [buildRules.eq_def] at h
  split at h
  · simp_all
  · rename_i l0 r0 p0 rest' heq
    cases heq
    cases hb : buildRules rest with
    | ok rs0 =>
        rw [hb] at h
        cases h
        exact ⟨l0, r0, p0, rs0, rfl, rfl, rfl⟩
    | error err => rw [hb] at h; cases h
  · cases h
  · cases h

theorem buildRules_ok_origs : ∀ (l : List Expr) (rs : List Rule),
    buildRules l = .ok rs → rs.map Rule.orig = l
  | [], rs, h => by
      simp only [buildRules] at h
      cases h
      rfl
  | e :: rest, rs, h => by
      obtain ⟨l0, r0, p0, rs0, he, hb, hrs⟩ := buildRules_cons_ok h
      subst hrs
      simp only [List.map_cons]
      rw [buildRules_ok_origs rest rs0 hb]

theorem buildRules_ok_shape : ∀ (l : List Expr) (rs : List Rule),
    buildRules l = .ok rs → ∀ e ∈ l, isRewriteRule3 e = true
  | [], _, _, e, he => by cases he
  | e0 :: rest, rs, h, e, he => by
      obtain ⟨l0, r0, p0, rs0, he0, hb, hrs⟩ := buildRules_cons_ok h
      rcases List.mem_cons.mp he with rfl | he
      · rw [he0]; rfl
      · exact buildRules_ok_shape rest rs0 hb e he

theorem buildRules_error_of_bad (l : List Expr) (e : Expr) (he : e ∈ l)
    (hbad : isRewriteRule3 e = false) : ∃ err, buildRules l = .error err := by
  cases hb : buildRules l with
  | error err => exact ⟨err, rfl⟩
  | ok rs =>
      have := buildRules_ok_shape l rs hb e he
      rw [hbad] at this
      cases this

theorem classifyLoop_no_skip (O : Oracles) (all : List Rule) :
    ∀ (rs : List Rule) (last : Option Expr),
      rs.Pairwise (fun r s => Expr.cmp r.orig s.orig = .lt) →
      (∀ o, last = some o → ∀ r ∈ rs, Expr.cmp r.orig o = .gt) →
      classifyLoop O all last rs = rs.map (classifyLine O all)
  | [], _, _, _ => rfl
  | r :: rest, last, hp, hl => by
      unfold classifyLoop
      split
      case isTrue hcond =>
          exfalso
          cases last with
          | none => simp at hcond
          | some o =>
              have hgt := hl o rfl r (List.mem_cons_self r rest)
              have hcond2 : (Expr.cmp r.orig o == Ordering.eq) = true := hcond
              rw [hgt] at hcond2
              exact absurd hcond2 (by decide)
      case isFalse =>
          simp only [List.map_cons]
          congr 1
          refine classifyLoop_no_skip O all rest (some r.orig)
            (List.pairwise_cons.mp hp).2 ?_
          intro o ho s hs
          cases ho
          exact Expr.cmp_gt_of_lt ((List.pairwise_cons.mp hp).1 s hs)

theorem lookup_mem : ∀ (b : Binding) (n : String) (e : Expr),
    List.lookup n b = some e → (n, e) ∈ b
  | [], _, _, h => by simp [List.lookup] at h
  | (k, v) :: rest, n, e, h => by
      rw [List.lookup] at h
      cases hk : (n == k)
      case true =>
          rw [hk] at h
          cases h
          have := eq_of_beq hk
          subst this
          exact List.mem_cons_self _ _
      case false =>
          rw [hk] at h
          exact List.mem_cons_of_mem _ (lookup_mem rest n e h)

mutual
theorem substitute_nil : ∀ e : Expr, substitute [] e = e
  | .Const _ => rfl
  | .Var _ => rfl
  | .Op k args => by rw [substitute, substituteList_nil args]
  | .Call n args => by rw [substitute, substituteList_nil args]

theorem substituteList_nil : ∀ es : List Expr, substituteList [] es = es
  | [] => rfl
  | e :: es => by rw [substituteList, substitute_nil e, substituteList_nil es]
end

mutual
theorem mgt_refl : ∀ (p : Expr) (b : Binding), IdBinding b →
    ∃ b2, mgt p p b = some b2 ∧ IdBinding b2
  | .Const v, b, hb => ⟨b, by simp [mgt], hb⟩
  | .Var n, b, hb => by
      simp only [mgt]
      cases h : List.lookup n b with
      | none =>
          refine ⟨(n, .Var n) :: b, rfl, ?_⟩
          intro q hq
          rcases List.mem_cons.mp hq with rfl | hq
          · rfl
          · exact hb q hq
      | some e0 =>
          have he : e0 = .Var n := hb (n, e0) (lookup_mem b n e0 h)
          subst he
          exact ⟨b, by simp, hb⟩
  | .Op k [], b, hb => by
      simp only [mgt, if_pos rfl]
      cases hc : k.commutative
      · simpa using mgtList_refl [] b hb
      · simpa using mgtList_refl [] b hb
  | .Op k [x], b, hb => by
      simp only [mgt, if_pos rfl]
      cases hc : k.commutative
      · simpa using mgtList_refl [x] b hb
      · simpa using mgtList_refl [x] b hb
  | .Op k [x, y], b, hb => by
      simp only [mgt, if_pos rfl]
      cases hc : k.commutative
      case false => simpa using mgtList_refl [x, y] b hb
      case true =>
          obtain ⟨b1, h1, hb1⟩ := mgt_refl x b hb
          obtain ⟨b2, h2, hb2⟩ := mgt_refl y b1 hb1
          refine ⟨b2, ?_, hb2⟩
          simp [h1, h2]
  | .Op k (x :: y :: z :: rest), b, hb => by
      simp only [mgt, if_pos rfl]
      cases hc : k.commutative
      · simpa using mgtList_refl (x :: y :: z :: rest) b hb
      · simpa using mgtList_refl (x :: y :: z :: rest) b hb
  | .Call n args, b, hb => by
      simp only [mgt, if_pos rfl]
      exact mgtList_refl args b hb

theorem mgtList_refl : ∀ (ps : List Expr) (b : Binding), IdBinding b →
    ∃ b2, mgtList ps ps b = some b2 ∧ IdBinding b2
  | [], b, hb => ⟨b, rfl, hb⟩
  | p :: ps, b, hb => by
      obtain ⟨b1, h1, hb1⟩ := mgt_refl p b hb
      obtain ⟨b2, h2, hb2⟩ := mgtList_refl ps b1 hb1
      refine ⟨b2, ?_, hb2⟩
      rw [mgtList, h1]
      exact h2
end

theorem more_general_than_refl (p : Expr) : (more_general_than p p).isSome = true := by
  obtain ⟨b2, h, _⟩ := mgt_refl p [] (by intro q hq; cases hq)
  rw [more_general_than, h]
  rfl

theorem dominatesB_iff (O : Oracles) (r r2 : Rule) :
    dominatesB O r r2 = true ↔
      ¬ r.orig = r2.orig ∧ ∃ b, more_general_than r2.lhs r.lhs = some b ∧
        O.can_prove (dominationFormula r2 r b) = true := by
  unfold dominatesB
  split
  · rename_i h
    simp [h]
  · rename_i h
    cases hm : more_general_than r2.lhs r.lhs with
    | some b => simp [h, hm]
    | none => simp [h, hm]

theorem classifyLine_isClassification (O : Oracles) (all : List Rule) (r : Rule) :
    (classifyLine O all r).isClassification = true := by
  unfold classifyLine
  cases classifyRule O all r <;> rfl

theorem classifyRule_tooSpecific_find (O : Oracles) (rules : List Rule) (r r2 : Rule)
    (h : classifyRule O rules r = .tooSpecific r2) :
    findDominator O rules r = some r2 := by
  unfold classifyRule at h
  split at h
  · cases h
  · split at h
    · cases h
    · split at h
      · cases h
      · cases hf : findDominator O rules r with
        | some r3 => rw [hf] at h; cases h; rfl
        | none => rw [hf] at h; cases h

theorem classifyRule_of_reach (O : Oracles) (rules : List Rule) (r : Rule)
    (h1 : is_zero r.predicate = false)
    (h2 : (find_vars r.rhs).any (fun v => !expr_uses_var r.lhs v) = false)
    (h3 : ¬ countLeaves (O.simplify r.lhs) < countLeaves r.lhs) :
    classifyRule O rules r =
      (match findDominator O rules r with
       | some r2 => .tooSpecific r2
       | none => .good) := by
  unfold classifyRule
  simp [h1, h2, h3]

theorem buildRules_dedup_pairwise (input : List Expr) (rules0 : List Rule)
    (h : buildRules (dedupSort input) = .ok rules0) :
    rules0.Pairwise (fun r s => Expr.cmp r.orig s.orig = .lt) := by
  have hs := dedupSort_sorted input
  rw [← buildRules_ok_origs _ _ h] at hs
  exact List.pairwise_map.mp hs

theorem resynth_pairwise (O : Oracles) {rules0 : List Rule}
    (h : rules0.Pairwise (fun r s => Expr.cmp r.orig s.orig = .lt)) :
    (rules0.map (resynthRule O)).Pairwise (fun r s => Expr.cmp r.orig s.orig = .lt) := by
  rw [List.pairwise_map]
  exact h

theorem run_ok_shape (O : Oracles) (input : List Expr) (rules0 : List Rule)
    (h : buildRules (dedupSort input) = .ok rules0) :
    run O input =
      { out := (rules0.map (resynthRule O)).map (fun r => Line.resynth r.orig)
          ++ (rules0.map (resynthRule O)).map (classifyLine O (rules0.map (resynthRule O)))
        err := none
        exitCode := 0 } := by
  simp only [run, h]
  rw [classifyLoop_no_skip O _ _ none
    (resynth_pairwise O (buildRules_dedup_pairwise input rules0 h))
    (by intro o ho; cases ho)]

/-- Claim C1, as stated, fails on the code: the domination loop iterates over
the whole deduplicated rule list, not only over surviving candidates.  In this
concrete run, `ruleMinR` is rejected "Too specific" citing `ruleImp`, even
though `ruleImp` is itself rejected ("Implicit rule") and no candidate at all
survives the filters, so no *surviving* candidate dominates `ruleMinR`. -/
theorem C1_counterexample :
    classifyRule OTrueProve rulesPair ruleMinR = .tooSpecific ruleImp ∧
    ruleMinR ∈ rulesPair ∧
    ruleImp ∈ rulesPair ∧
    classifyRule OTrueProve rulesPair ruleImp = .implicitRule ∧
    (∀ r2 ∈ rulesPair, ¬ classifyRule OTrueProve rulesPair r2 = .good) := by
  decide

/-- Claim C1 (amended): for a rule `r` that reaches the domination stage, `r`
is rejected "Too specific" iff some candidate `r2` of the deduplicated rule
list (surviving or not) has a different origin, `more_general_than(r2.lhs,
r.lhs)` succeeds with a binding `b`, and the oracle proves
`r2.predicate || substitute(b, !r.predicate)`; when the oracle returns `false`
on that formula for every candidate, `r` is kept (classified good). -/
theorem C1_domination_iff (O : Oracles) (rules : List Rule) (r : Rule)
    (h1 : is_zero r.predicate = false)
    (h2 : (find_vars r.rhs).any (fun v => !expr_uses_var r.lhs v) = false)
    (h3 : ¬ countLeaves (O.simplify r.lhs) < countLeaves r.lhs) :
    ((∃ r2, classifyRule O rules r = .tooSpecific r2) ↔
      ∃ r2 ∈ rules, ¬ r.orig = r2.orig ∧ ∃ b, more_general_than r2.lhs r.lhs = some b ∧
        O.can_prove (dominationFormula r2 r b) = true) ∧
    ((∀ r2 ∈ rules, dominatesB O r r2 = false) → classifyRule O rules r = .good) := by
  have hc := classifyRule_of_reach O rules r h1 h2 h3
  constructor
  · constructor
    · rintro ⟨r2, hr2⟩
      have hf := classifyRule_tooSpecific_find O rules r r2 hr2
      have hmem := List.mem_of_find?_eq_some hf
      have hp := List.find?_some hf
      rw [dominatesB_iff] at hp
      exact ⟨r2, hmem, hp⟩
    · rintro ⟨r2, hmem, hcond⟩
      rw [hc]
      cases hf : findDominator O rules r with
      | some r3 => exact ⟨r3, rfl⟩
      | none =>
          exfalso
          rw [findDominator, List.find?_eq_none] at hf
          exact hf r2 hmem ((dominatesB_iff O r r2).mpr hcond)
  · intro hall
    rw [hc]
    cases hf : findDominator O rules r with
    | some r3 =>
        have hmem := List.mem_of_find?_eq_some hf
        have hp := List.find?_some hf
        rw [hall r3 hmem] at hp
        cases hp
    | none => rfl

/-- Witness for the amended C1 at a concrete input: the dominated rule of the
two-rule corpus, with every hypothesis discharged by evaluation. -/
theorem C1_domination_iff_witness :
    ((∃ r2, classifyRule OTrueProve rulesPair ruleMinR = .tooSpecific r2) ↔
      ∃ r2 ∈ rulesPair, ¬ ruleMinR.orig = r2.orig ∧ ∃ b,
        more_general_than r2.lhs ruleMinR.lhs = some b ∧
        OTrueProve.can_prove (dominationFormula r2 ruleMinR b) = true) ∧
    ((∀ r2 ∈ rulesPair, dominatesB OTrueProve ruleMinR r2 = false) →
      classifyRule OTrueProve rulesPair ruleMinR = .good) :=
  C1_domination_iff OTrueProve rulesPair ruleMinR (by decide) (by decide) (by decide)

/-- Claim C2: a rule reaching the redundant-with-baseline stage is rejected
"Simplifiable LHS" iff the normalized lhs has strictly fewer leaves (`Const`
and `Var` occurrences, wildcards included) than the lhs; in particular
`rewrite(x - x, 0)` is reported "Simplifiable LHS" whenever the synthesizer
returns a non-false predicate with an empty binding and the baseline
normalizer reduces `x - x` to `0`. -/
theorem C2_simplifiable_lhs :
    (∀ (O : Oracles) (rules : List Rule) (r : Rule),
        is_zero r.predicate = false →
        (find_vars r.rhs).any (fun v => !expr_uses_var r.lhs v) = false →
        ((∃ s, classifyRule O rules r = .simplifiable s) ↔
          countLeaves (O.simplify r.lhs) < countLeaves r.lhs)) ∧
    (∀ (O : Oracles) (rules : List Rule) (p : Expr),
        O.synthesize lhsSub (.Const 0) = (p, []) →
        is_zero p = false →
        O.simplify lhsSub = .Const 0 →
        classifyRule O rules (resynthRule O ruleSub) = .simplifiable (.Const 0)) := by
  constructor
  · intro O rules r h1 h2
    constructor
    · rintro ⟨s, hs⟩
      by_cases h3 : countLeaves (O.simplify r.lhs) < countLeaves r.lhs
      · exact h3
      · rw [classifyRule_of_reach O rules r h1 h2 h3] at hs
        cases hf : findDominator O rules r with
        | some r2 => rw [hf] at hs; cases hs
        | none => rw [hf] at hs; cases hs
    · intro h3
      refine ⟨O.simplify r.lhs, ?_⟩
      unfold classifyRule
      simp [h1, h2, h3]
  · intro O rules p hsyn hp hsimp
    have hres : resynthRule O ruleSub =
        { lhs := lhsSub, rhs := .Const 0, predicate := p, orig := eSubRule } := by
      simp only [resynthRule, ruleSub, hsyn]
      rw [substitute_nil, substitute_nil]
    rw [hres]
    unfold classifyRule
    have hany : ((find_vars (Expr.Const 0)).any
        (fun v => !expr_uses_var lhsSub v)) = false := by decide
    have hcount : countLeaves (Expr.Const 0) < countLeaves lhsSub := by decide
    simp [hp, hany, hsimp, hcount]

/-- Witness for C2: the iff at `ruleSub` under `OSimp`, and Scenario A
(`rewrite(x - x, 0)` reported "Simplifiable LHS") under `OSimp`. -/
theorem C2_witness :
    ((∃ s, classifyRule OSimp [] ruleSub = .simplifiable s) ↔
      countLeaves (OSimp.simplify ruleSub.lhs) < countLeaves ruleSub.lhs) ∧
    classifyRule OSimp [] (resynthRule OSimp ruleSub) = .simplifiable (.Const 0) :=
  ⟨C2_simplifiable_lhs.1 OSimp [] ruleSub (by decide) (by decide),
   C2_simplifiable_lhs.2 OSimp [] (.Const 1) rfl (by decide) (by decide)⟩

/-- Claim C3: the classifier is deterministic with respect to the on-disk
order of the input: permuting the parsed top-level terms leaves the entire
run result (output lines, diagnostics, exit code) unchanged, and appending a
structural duplicate of an already-present term changes nothing either, since
structurally equal origin terms collapse to a single rule. -/
theorem C3_determinism (O : Oracles) (l1 l2 : List Expr) (h : l1.Perm l2) :
    run O l1 = run O l2 ∧ ∀ e ∈ l1, run O (l1 ++ [e]) = run O l1 := by
  constructor
  · unfold run
    rw [dedupSort_perm h]
  · intro e he
    unfold run
    rw [dedupSort_append_dup l1 e he]

/-- Witness for C3: the two-rule corpus in both on-disk orders, and with a
duplicated term appended. -/
theorem C3_witness :
    run OTrueProve inputPair = run OTrueProve [eImplicit, eMinRule] ∧
    run OTrueProve (inputPair ++ [eMinRule]) = run OTrueProve inputPair :=
  ⟨(C3_determinism OTrueProve inputPair [eImplicit, eMinRule]
      (List.Perm.swap eImplicit eMinRule [])).1,
   (C3_determinism OTrueProve inputPair [eImplicit, eMinRule]
      (List.Perm.swap eImplicit eMinRule [])).2 eMinRule (by decide)⟩

/-- Claim C4: after re-synthesis, a rule is rejected "False predicate" iff
its predicate is syntactically the constant false (`is_zero`); this filter
runs first, so such a rule is reported only as "False predicate" regardless
of the later filters. -/
theorem C4_false_predicate (O : Oracles) (rules : List Rule) (r : Rule) :
    classifyRule O rules r = .falsePred ↔ is_zero r.predicate = true := by
  unfold classifyRule
  cases h : is_zero r.predicate with
  | true => simp [h]
  | false =>
      simp only [h, Bool.false_eq_true, if_false]
      constructor
      · intro hc
        split at hc
        · cases hc
        · split at hc
          · cases hc
          · split at hc <;> cases hc
      · intro hc
        cases hc

/-- Claim C5: a rule whose predicate is not the constant false is rejected
"Implicit rule" iff some variable free in its rhs is not free in its lhs; in
particular `rewrite(y, x)` is reported "Implicit rule" whenever the
synthesizer returns a non-false predicate with an empty binding for it. -/
theorem C5_implicit_rule :
    (∀ (O : Oracles) (rules : List Rule) (r : Rule),
        is_zero r.predicate = false →
        (classifyRule O rules r = .implicitRule ↔
          ∃ v ∈ find_vars r.rhs, expr_uses_var r.lhs v = false)) ∧
    (∀ (O : Oracles) (rules : List Rule) (p : Expr),
        O.synthesize (.Var "y") (.Var "x") = (p, []) →
        is_zero p = false →
        classifyRule O rules (resynthRule O ruleYX) = .implicitRule) := by
  constructor
  · intro O rules r h1
    have hany : ((find_vars r.rhs).any (fun v => !expr_uses_var r.lhs v) = true) ↔
        (∃ v ∈ find_vars r.rhs, expr_uses_var r.lhs v = false) := by
      rw [List.any_eq_true]
      constructor
      · rintro ⟨v, hv, hb⟩
        exact ⟨v, hv, by simpa using hb⟩
      · rintro ⟨v, hv, hb⟩
        exact ⟨v, hv, by simpa using hb⟩
    rw [← hany]
    cases h2 : (find_vars r.rhs).any (fun v => !expr_uses_var r.lhs v) with
    | true =>
        have hcls : classifyRule O rules r = .implicitRule := by
          unfold classifyRule
          simp [h1, h2]
        simp [hcls]
    | false =>
        constructor
        · intro hc
          by_cases h3 : countLeaves (O.simplify r.lhs) < countLeaves r.lhs
          · unfold classifyRule at hc
            simp [h1, h2, h3] at hc
          · rw [classifyRule_of_reach O rules r h1 h2 h3] at hc
            cases hf : findDominator O rules r with
            | some r2 => rw [hf] at hc; cases hc
            | none => rw [hf] at hc; cases hc
        · intro hc
          cases hc
  · intro O rules p hsyn hp
    have hres : resynthRule O ruleYX =
        { lhs := .Var "y", rhs := .Var "x", predicate := p, orig := eYX } := by
      simp only [resynthRule, ruleYX, hsyn]
      rw [substitute_nil, substitute_nil]
    rw [hres]
    unfold classifyRule
    have hany : ((find_vars (Expr.Var "x")).any
        (fun v => !expr_uses_var (Expr.Var "y") v)) = true := by decide
    simp [hp, hany]

/-- Witness for C5: the iff at the implicit rule of the two-rule corpus, and
Scenario C (`rewrite(y, x)` reported "Implicit rule") under `OTrueProve`. -/
theorem C5_witness :
    (classifyRule OTrueProve rulesPair ruleImp = .implicitRule ↔
      ∃ v ∈ find_vars ruleImp.rhs, expr_uses_var ruleImp.lhs v = false) ∧
    classifyRule OTrueProve [] (resynthRule OTrueProve ruleYX) = .implicitRule :=
  ⟨C5_implicit_rule.1 OTrueProve rulesPair ruleImp (by decide),
   C5_implicit_rule.2 OTrueProve [] (.Const 1) rfl (by decide)⟩

/-- Claim C6: no rule is ever reported "Too specific" with itself as the
dominating rule — the domination loop skips every candidate with the same
origin identity — even though `more_general_than(p, p)` always succeeds. -/
theorem C6_no_self_domination :
    (∀ (O : Oracles) (rules : List Rule) (r r2 : Rule),
        classifyRule O rules r = .tooSpecific r2 → ¬ r2.orig = r.orig) ∧
    (∀ p : Expr, (more_general_than p p).isSome = true) := by
  constructor
  · intro O rules r r2 h
    have hf := classifyRule_tooSpecific_find O rules r r2 h
    have hp := List.find?_some hf
    rw [dominatesB_iff] at hp
    intro he
    exact hp.1 he.symm
  · exact more_general_than_refl

/-- Witness for C6: in the concrete two-rule run the dominating rule has a
different origin, and the matcher is reflexive on the dominated lhs. -/
theorem C6_witness :
    ¬ ruleImp.orig = ruleMinR.orig ∧
    (more_general_than (.Op .min [.Var "a", .Var "b"])
        (.Op .min [.Var "a", .Var "b"])).isSome = true :=
  ⟨C6_no_self_domination.1 OTrueProve rulesPair ruleMinR ruleImp (by decide),
   C6_no_self_domination.2 (.Op .min [.Var "a", .Var "b"])⟩

/-- Claim C7, as stated, is false on the code: a processed rule produces two
standard-output lines, a "Re-synthesizing predicate for" line from the
re-synthesis loop followed later by its classification line — here a single
processed rule yields two lines, not exactly one. -/
theorem C7_counterexample :
    (run OZero [eSelfRule]).out = [.resynth eSelfRule, .falsePredicate eSelfRule] ∧
    (run OZero [eSelfRule]).out.length ≠ 1 := by
  decide

/-- Claim C7 (amended): each processed rule emits exactly one
"Re-synthesizing predicate for" line and exactly one classification line
tagged with one of the five classification tags; all re-synthesis lines come
first, then the classification lines, both blocks in canonical sorted rule
order. -/
theorem C7_output_shape (O : Oracles) (input : List Expr) (rules0 : List Rule)
    (h : buildRules (dedupSort input) = .ok rules0) :
    (run O input).out =
      (rules0.map (resynthRule O)).map (fun r => Line.resynth r.orig)
        ++ (rules0.map (resynthRule O)).map (classifyLine O (rules0.map (resynthRule O)))
    ∧ ∀ r : Rule, (classifyLine O (rules0.map (resynthRule O)) r).isClassification = true := by
  refine ⟨?_, fun r => classifyLine_isClassification O _ r⟩
  rw [run_ok_shape O input rules0 h]

/-- Witness for the amended C7 at the concrete two-rule corpus. -/
theorem C7_output_shape_witness :
    (run OTrueProve inputPair).out =
      ([ruleImp, ruleMinR].map (resynthRule OTrueProve)).map (fun r => Line.resynth r.orig)
        ++ ([ruleImp, ruleMinR].map (resynthRule OTrueProve)).map
            (classifyLine OTrueProve ([ruleImp, ruleMinR].map (resynthRule OTrueProve)))
    ∧ (classifyLine OTrueProve ([ruleImp, ruleMinR].map (resynthRule OTrueProve))
        ruleMinR).isClassification = true :=
  ⟨(C7_output_shape OTrueProve inputPair [ruleImp, ruleMinR] rfl).1,
   (C7_output_shape OTrueProve inputPair [ruleImp, ruleMinR] rfl).2 ruleMinR⟩

/-- Claim C8: if any deduplicated top-level term is not a 3-argument
"rewrite" call, the run produces a diagnostic on the error stream, a nonzero
exit code, and no classification output at all. -/
theorem C8_fatal_on_malformed (O : Oracles) (input : List Expr)
    (h : ∃ e ∈ input, isRewriteRule3 e = false) :
    (run O input).out = [] ∧ (run O input).err.isSome = true ∧
      (run O input).exitCode ≠ 0 := by
  obtain ⟨e, he, hbad⟩ := h
  obtain ⟨err, herr⟩ :=
    buildRules_error_of_bad (dedupSort input) e ((mem_dedupSort input e).mpr he) hbad
  simp only [run, herr]
  exact ⟨trivial, rfl, by decide⟩

/-- Witness for C8: a corpus whose only term is the constant `0`. -/
theorem C8_witness :
    (run OTrueProve [.Const 0]).out = [] ∧
    (run OTrueProve [.Const 0]).err.isSome = true ∧
    (run OTrueProve [.Const 0]).exitCode ≠ 0 :=
  C8_fatal_on_malformed OTrueProve [.Const 0] ⟨.Const 0, by decide, by decide⟩

/-- Claim C9: re-synthesis replaces the predicate wholesale with the
synthesizer's output and substitutes the returned binding into lhs and rhs,
while `orig` is left entirely unchanged. -/
theorem C9_resynthesis_frame (O : Oracles) (r : Rule) :
    (resynthRule O r).orig = r.orig ∧
    (resynthRule O r).predicate = (O.synthesize r.lhs r.rhs).1 ∧
    (resynthRule O r).lhs = substitute (O.synthesize r.lhs r.rhs).2 r.lhs ∧
    (resynthRule O r).rhs = substitute (O.synthesize r.lhs r.rhs).2 r.rhs :=
  ⟨rfl, rfl, rfl, rfl⟩

/-- Claim C10: the rule list built from the deduplicated set has origins in
strictly increasing structural order (hence pairwise structurally distinct),
so the adjacent-duplicate skip in the classification loop never fires: the
loop classifies every rule. -/
theorem C10_sorted_dedup_no_skip (input : List Expr) (rules0 : List Rule)
    (h : buildRules (dedupSort input) = .ok rules0) :
    rules0.Pairwise (fun r s => Expr.cmp r.orig s.orig = .lt) ∧
    ∀ O : Oracles,
      classifyLoop O (rules0.map (resynthRule O)) none (rules0.map (resynthRule O))
        = (rules0.map (resynthRule O)).map (classifyLine O (rules0.map (resynthRule O))) := by
  refine ⟨buildRules_dedup_pairwise input rules0 h, fun O => ?_⟩
  exact classifyLoop_no_skip O _ _ none
    (resynth_pairwise O (buildRules_dedup_pairwise input rules0 h))
    (by intro o ho; cases ho)

/-- Witness for C10 at the concrete two-rule corpus. -/
theorem C10_witness :
    [ruleImp, ruleMinR].Pairwise (fun r s => Expr.cmp r.orig s.orig = .lt) ∧
    classifyLoop OTrueProve ([ruleImp, ruleMinR].map (resynthRule OTrueProve)) none
        ([ruleImp, ruleMinR].map (resynthRule OTrueProve))
      = ([ruleImp, ruleMinR].map (resynthRule OTrueProve)).map
          (classifyLine OTrueProve ([ruleImp, ruleMinR].map (resynthRule OTrueProve))) :=
  ⟨(C10_sorted_dedup_no_skip inputPair [ruleImp, ruleMinR] rfl).1,
   (C10_sorted_dedup_no_skip inputPair [ruleImp, ruleMinR] rfl).2 OTrueProve⟩

end FilterRewriteRules
